import Mathlib

/-!
Shallow embedding of the Notes-converter server (src/types.ts server section,
src/lib/preprocess.js) and proofs about its Job Manager, pipeline executor,
preprocessor, bundling and HTTP handlers.

Conventions of the embedding:
* JS numbers holding millisecond timestamps and byte sizes are `Int`;
  quantities on which JS performs fractional arithmetic (`fileSize / 1024`,
  `estimatedDuration`, `Math.ceil(x / 1000)`) are `ℚ`.
* Effectful operations (file reads, process spawns, network downloads) are
  driven by explicit environment records of booleans/functions describing the
  outcome of each external call, so the embedded code is a pure function of
  the environment.
* The in-memory `Map` of jobs is an association list `List (String × Job)`;
  `Map.get` is `find?` on the key, `Map.set` of a fresh key is an append,
  `Map.delete`-based cleanup is a `filter`.
-/

namespace NotesConverter

/-- Job lifecycle states, as the string union `'queued' | 'processing' |
'completed' | 'error'` used by the server's JobManager. -/
inductive JState where
  | queued
  | processing
  | completed
  | error
deriving DecidableEq, Repr

/-- The `exportOptions` object `{ docx: boolean, pdf: boolean }`. -/
structure ExportOptions where
  docx : Bool
  pdf : Bool
deriving DecidableEq, Repr

/-- The multer upload record fields used by the server (`file.size`,
`file.originalname`, `file.path`). -/
structure UploadedFile where
  size : Int
  originalname : String
  path : String
deriving DecidableEq, Repr

/-- One Job record, as created by `JobManager.addJob` and mutated by
`executeJob`.  `outDocx`/`outPdf` model the `outputs.docx` / `outputs.pdf`
fields (absent key = `none`). -/
structure Job where
  id : String
  state : JState
  progress : Nat
  fileSize : Int
  originalName : String
  inputPath : String
  outDocx : Option String
  outPdf : Option String
  exportOptions : ExportOptions
  error : Option String
  startTime : Int
  endTime : Int
  estimatedDuration : ℚ
  created : Int
deriving DecidableEq, Repr

/-- The job literal built in `JobManager.addJob`; `exportOptions ||
\x7bdocx: true, pdf: false\x7d` is modelled by `Option.getD` (a `none`
argument models a falsy `exportOptions` value). -/
def mkJob (jobId : String) (file : UploadedFile) (exportOptions : Option ExportOptions)
    (now : Int) : Job :=
  { id := jobId
    state := .queued
    progress := 0
    fileSize := file.size
    originalName := file.originalname
    inputPath := file.path
    outDocx := none
    outPdf := none
    exportOptions := exportOptions.getD ⟨true, false⟩
    error := none
    startTime := 0
    endTime := 0
    estimatedDuration := 0
    created := now }

/-! ## Global literal text replacement

`preprocess.js` builds `new RegExp(<escaped literal>, 'g')` from the emoji
token and calls `String.prototype.replace` with it, i.e. it performs a global,
left-to-right, non-overlapping replacement of a literal pattern.  We model
that scanner directly on `List Char`. -/

/-- Whether `pat` occurs at the head of `l` (literal match). -/
def isMatch : List Char → List Char → Bool
  | [], _ => true
  | _ :: _, [] => false
  | p :: ps, c :: cs => p = c && isMatch ps cs

/-- Left-to-right global replacement of the literal pattern `pat` by `rep`,
the semantics of `String.replace(new RegExp(escapedLiteral, 'g'), rep)` for a
nonempty literal. -/
def replaceAllAux (pat rep : List Char) : List Char → List Char
  | [] => []
  | c :: cs =>
    if 0 < pat.length ∧ isMatch pat (c :: cs) = true then
      rep ++ replaceAllAux pat rep (cs.drop (pat.length - 1))
    else
      c :: replaceAllAux pat rep cs
termination_by l => l.length
decreasing_by
· simp only [List.length_drop, List.length_cons]
  omega
· simp only [List.length_cons]
  omega

/-- String version of `replaceAllAux`. -/
def replaceAll (pat rep s : String) : String :=
  ⟨replaceAllAux pat.data rep.data s.data⟩

/-- Joining a list of segments with a separator; used to state that a global
replacement rewrites every found occurrence to one identical string. -/
def joinWith (sep : List Char) : List (List Char) → List Char
  | [] => []
  | [x] => x
  | x :: xs => x ++ sep ++ joinWith sep xs

/-! ## Preprocessor (src/lib/preprocess.js) -/

/-- One entity produced by the twemoji `parse` call: the matched emoji text
and the twemoji asset url. -/
structure Entity where
  text : String
  url : String
deriving DecidableEq, Repr

/-- Environment for one `preprocessMarkdown` run: whether the surrounding
try/catch fires (`internalError`, e.g. a throwing `parse`), the entity list
`parse(markdown)` returns, the filenames initially present in the emoji cache
directory, and which filenames the CDN download succeeds for. -/
structure PreEnv where
  internalError : Bool
  entities : List Entity
  cache0 : List String
  downloadOk : String → Bool

/-- State threaded through the entity loop: the text being rewritten, the
filenames present in the cache directory, plus two ghost event logs used only
in specifications: the tokens for which a cache lookup (`fs.access`) was
performed and the tokens for which a download was attempted. -/
structure PreState where
  text : String
  cache : List String
  lookups : List String
  fetches : List String

/-- The emoji cache directory `path.join(process.cwd(), 'assets', 'emoji')`,
kept cwd-relative in the model. -/
def EMOJI_CACHE_DIR : String := "assets/emoji"

/-- `urlParts[urlParts.length - 1]` of `entity.url.split('/')`. -/
def finalName (url : String) : String := (url.splitOn "/").getLastD ""

/-- The local cache path for an entity, `path.join(EMOJI_CACHE_DIR, finalName)`. -/
def localPath (e : Entity) : String := EMOJI_CACHE_DIR ++ "/" ++ finalName e.url

/-- The pandoc image reference the preprocessor substitutes for an emoji
token at the fixed 1em inline size. -/
def assetRef (p : String) : String := "![](" ++ p ++ ")\x7bwidth=1em height=1em\x7d"

/-- One `Map.set` on the dedup map `new Map(entities.map(item => [item.text,
item]))`: an existing key keeps its position and gets the new value, a fresh
key is appended. -/
def mapInsert (m : List Entity) (e : Entity) : List Entity :=
  if m.any (fun x => x.text = e.text) then
    m.map (fun x => if x.text = e.text then e else x)
  else
    m ++ [e]

/-- `[...new Map(entities.map(item => [item.text, item])).values()]`:
deduplication by token text, first-occurrence order, last value wins. -/
def uniqueEntities (es : List Entity) : List Entity := es.foldl mapInsert []

/-- The body of the `for (const entity of uniqueEntities)` loop: cache check
(`fs.access`), download on miss (skipping substitution for this token when the
download fails), then global replacement of the token by its asset reference. -/
def processEntity (env : PreEnv) (st : PreState) (e : Entity) : PreState :=
  let name := finalName e.url
  let lp := EMOJI_CACHE_DIR ++ "/" ++ name
  let st1 : PreState := { st with lookups := st.lookups ++ [e.text] }
  if st1.cache.contains name then
    { st1 with text := replaceAll e.text (assetRef lp) st1.text }
  else
    let st2 : PreState := { st1 with fetches := st1.fetches ++ [e.text] }
    if env.downloadOk name then
      { st2 with
        cache := st2.cache ++ [name]
        text := replaceAll e.text (assetRef lp) st2.text }
    else
      st2

/-- `preprocessMarkdown`: on an internal error the original markdown is
returned unchanged; otherwise the deduplicated entity list is processed in
order.  The returned record's `text` is the function's return value, the
other fields are the final cache contents and the ghost event logs. -/
def preprocessMarkdown (env : PreEnv) (markdown : String) : PreState :=
  if env.internalError then
    { text := markdown, cache := env.cache0, lookups := [], fetches := [] }
  else
    (uniqueEntities env.entities).foldl (processEntity env)
      { text := markdown, cache := env.cache0, lookups := [], fetches := [] }

/-! ## Pipeline executor (JobManager.executeJob) -/

/-- Environment describing the outcome of every external call `executeJob`
makes: the file read, the temp-file write, the pandoc conversion, the
libreoffice run and the `fs.access` check of the produced PDF, plus the
preprocessor's own environment.  The `writeErr`/`convertErr` strings are the
`error.message` values of the corresponding rejections (for the conversion,
the string `Conversion failed: <stderr>` thrown by `convertToDocx`). -/
structure ExecEnv where
  readOk : Bool
  content : String
  pre : PreEnv
  writeOk : Bool
  writeErr : String
  convertOk : Bool
  convertErr : String
  pdfExecOk : Bool
  pdfFileOk : Bool

/-- Step 4 of `executeJob` plus the success epilogue: reconciliation of an
unwanted intermediate DOCX, `progress = 100`, `state = 'completed'`,
`endTime`.  (The model reuses the single clock parameter for `endTime`.) -/
def finishJob (j : Job) (now : Int) : Job :=
  let j1 : Job :=
    if j.exportOptions.docx = false ∧ j.outPdf.isSome then { j with outDocx := none } else j
  { j1 with progress := 100, state := .completed, endTime := now }

/-- `JobManager.executeJob`, returning the final job record together with the
list of values assigned to `job.progress`, in assignment order (the ghost
progress trace).  Faithfully mirrors the source's order of assignments; in
particular `outputs.pdf` is assigned right after a successful libreoffice
exit and before the `fs.access` verification, and is not cleared when that
verification fails. -/
def executeJob (env : ExecEnv) (job : Job) (now : Int) : Job × List Nat :=
  let fileSizeKB : ℚ := (job.fileSize : ℚ) / 1024
  let j0 : Job := { job with
    state := .processing
    startTime := now
    estimatedDuration :=
      2000 + fileSizeKB * 100 + (if job.exportOptions.pdf then 5000 else 0) }
  let outputDocx : String := "/tmp/output-" ++ job.id ++ ".docx"
  let outputPdf : String := "/tmp/output-" ++ job.id ++ ".pdf"
  let j1 : Job := { j0 with progress := 10 }
  if env.readOk = false then
    ({ j1 with state := .error, error := some "Failed to read uploaded file" }, [10])
  else
    let j2 : Job := { j1 with progress := 20 }
    let _processed : String := (preprocessMarkdown env.pre env.content).text
    if env.writeOk = false then
      ({ j2 with state := .error, error := some env.writeErr }, [10, 20])
    else
      let j3 : Job := { j2 with progress := 40 }
      if env.convertOk = false then
        ({ j3 with state := .error, error := some env.convertErr }, [10, 20, 40])
      else
        let j4 : Job :=
          if job.exportOptions.docx then { j3 with outDocx := some outputDocx } else j3
        let j5 : Job := { j4 with progress := 70 }
        if job.exportOptions.pdf then
          if env.pdfExecOk then
            let j6 : Job := { j5 with outPdf := some outputPdf }
            if env.pdfFileOk then
              (finishJob j6 now, [10, 20, 40, 70, 100])
            else
              if job.exportOptions.docx = false then
                ({ j6 with state := .error, error := some "PDF generation failed" },
                  [10, 20, 40, 70])
              else
                (finishJob j6 now, [10, 20, 40, 70, 100])
          else
            if job.exportOptions.docx = false then
              ({ j5 with state := .error, error := some "PDF generation failed" },
                [10, 20, 40, 70])
            else
              (finishJob j5 now, [10, 20, 40, 70, 100])
        else
          (finishJob j5 now, [10, 20, 40, 70, 100])

/-! ## Job manager state, scheduling and HTTP handlers -/

/-- The mutable fields of the `JobManager` instance: the `jobs` Map, the
FIFO `queue` of job ids, the shared `activeWorkers` counter and the
constructor-fixed `concurrencyLimit`. -/
structure MState where
  jobs : List (String × Job)
  queue : List String
  activeWorkers : Int
  concurrencyLimit : Int
deriving Repr

/-- `this.jobs.get(jobId)` (`JobManager.getJob`). -/
def getJob (jobs : List (String × Job)) (id : String) : Option Job :=
  (jobs.find? (fun p => p.1 = id)).map Prod.snd

/-- `this.jobs.set(id, j)` for a key already present: the entry is updated in
place. -/
def setJob (jobs : List (String × Job)) (id : String) (j : Job) : List (String × Job) :=
  jobs.map (fun p => if p.1 = id then (p.1, j) else p)

/-- Number of registry entries currently in state `processing`. -/
def processingCount (jobs : List (String × Job)) : Nat :=
  jobs.countP (fun p => p.2.state == .processing)

/-- `JobManager.calculateTimeLeft`.  `Math.ceil((estimatedDuration - elapsed)
/ 1000)` is `⌈·⌉` on `ℚ`; `queue.indexOf(job.id)` returning `-1` is the
`none` branch of `findIdx?`. -/
def calculateTimeLeft (queue : List String) (job : Job) (now : Int) : Int :=
  if job.state = .processing then
    max 0 ⌈(job.estimatedDuration - ((now - job.startTime : Int) : ℚ)) / 1000⌉
  else if job.state = .queued then
    match queue.findIdx? (fun x => x = job.id) with
    | none => 0
    | some p => ((p : Int) + 1) * 3
  else 0

/-- `JobManager.cleanupStaleJobs`: delete every registry entry whose
`created` is older than one hour before `now`. -/
def cleanupStaleJobs (now : Int) (jobs : List (String × Job)) : List (String × Job) :=
  jobs.filter (fun p => !decide (p.2.created < now - 60 * 60 * 1000))

/-- Responses of `GET /status/:id`. -/
inductive StatusResponse where
  | notFound (msg : String)
  | ok (state : JState) (progress : Nat) (timeLeft : Int) (docx pdf : Bool)
      (error : Option String)
deriving DecidableEq, Repr

/-- The `GET /status/:id` handler: 404 for an unknown/evicted id, otherwise
the job snapshot with `outputs` collapsed to presence booleans. -/
def statusHandler (jobs : List (String × Job)) (queue : List String) (id : String)
    (now : Int) : StatusResponse :=
  match getJob jobs id with
  | none => .notFound "Job not found"
  | some job =>
      .ok job.state job.progress (calculateTimeLeft queue job now)
        job.outDocx.isSome job.outPdf.isSome job.error

/-- `JobManager.addJob` without the trailing `processNext` kick (scheduling
is modelled separately by the `Step` relation): create the record, register
it, enqueue its id, return the id. -/
def addJob (s : MState) (newId : String) (now : Int) (file : UploadedFile)
    (exportOptions : Option ExportOptions) : MState × String :=
  let job := mkJob newId file exportOptions now
  ({ s with jobs := s.jobs ++ [(newId, job)], queue := s.queue ++ [newId] }, newId)

/-- Responses of `POST /upload`. -/
inductive UploadResponse where
  | badRequest (msg : String)
  | ok (jobId : String)
deriving DecidableEq, Repr

/-- The `POST /upload` handler.  `expField` is `req.body.exportOptions`
(absent = `none`); `parseJson` models `JSON.parse` on it: `none` is a throw
(the handler keeps the default), `some none` is a successfully parsed falsy
value (then `addJob`'s `||` default applies), `some (some o)` a parsed
options object. -/
def uploadHandler (s : MState) (file : Option UploadedFile) (expField : Option String)
    (parseJson : String → Option (Option ExportOptions)) (newId : String) (now : Int) :
    MState × UploadResponse :=
  match file with
  | none => (s, .badRequest "No file uploaded")
  | some f =>
    let exportOptions : Option ExportOptions :=
      match expField with
      | none => some ⟨true, false⟩
      | some str =>
        match parseJson str with
        | none => some ⟨true, false⟩
        | some v => v
    let r := addJob s newId now f exportOptions
    (r.1, .ok r.2)

/-! ## Bundling (POST /zip) -/

/-- Whether `suf` is a suffix of `s` (on character lists). -/
def isSuffix (suf s : List Char) : Bool :=
  decide (suf.length ≤ s.length) && isMatch suf (s.drop (s.length - suf.length))

/-- `job.originalName.replace(/\.(md|textbundle)$/, '')`: strip one trailing
`.md` or `.textbundle` extension if present. -/
def stripExt (s : String) : String :=
  if isSuffix ".md".data s.data then ⟨s.data.take (s.data.length - 3)⟩
  else if isSuffix ".textbundle".data s.data then ⟨s.data.take (s.data.length - 11)⟩
  else s

/-- The archive entries contributed by one valid job: its docx and pdf
output paths, each only when present in `outputs` and still existing on disk
(`fileOk`), named from the original filename with the proper extension. -/
def jobEntries (fileOk : String → Bool) (j : Job) : List (String × String) :=
  (match j.outDocx with
   | some p => if fileOk p then [(stripExt j.originalName ++ ".docx", p)] else []
   | none => []) ++
  (match j.outPdf with
   | some p => if fileOk p then [(stripExt j.originalName ++ ".pdf", p)] else []
   | none => [])

/-- Responses of `POST /zip`. -/
inductive ZipResponse where
  | badRequest (msg : String)
  | notFound (msg : String)
  | archive (entries : List (String × String))
deriving DecidableEq, Repr

/-- The `POST /zip` handler.  The body's `jobIds` array is modelled as a
`List String`; the `!Array.isArray` guard collapses onto the empty-list
check.  `fileOk` tells which output paths still exist (`fs.access`). -/
def zipHandler (jobs : List (String × Job)) (fileOk : String → Bool)
    (jobIds : List String) : ZipResponse :=
  if jobIds.isEmpty then .badRequest "No job IDs provided"
  else
    let validJobs :=
      (jobIds.filterMap (getJob jobs)).filter (fun j => j.state == .completed)
    if validJobs.isEmpty then .notFound "No completed files found to zip"
    else .archive (validJobs.flatMap (jobEntries fileOk))

/-! ## Scheduler step relation (processNext and the worker lifecycle)

`processNext` runs synchronously up to `await this.executeJob(job)`: the
capacity check, the `activeWorkers++`, the `queue.shift()` and (inside
`executeJob`, before its first `await`) the transition of the job to
`processing` with `startTime`, `estimatedDuration` and `progress = 10` form
one atomic block in the single-threaded event loop.  That block is the
`dispatch` step below, `startJob` being the synchronous prefix of
`executeJob`.  The remainder of the worker runs across awaits and ends in
either the `finally`-guarded normal path or the catch-then-`finally` path of
`processNext`; both decrement `activeWorkers` unconditionally — whether or
not the worker's job record is still in the registry, since
`cleanupStaleJobs` evicts purely by age and can delete a record mid-run.  To
express that, the scheduler state extends the manager's fields with a ghost
list of the job ids currently held by in-flight workers: a worker-exit step
is enabled by membership in that list alone.  The worker's final mutation of
its job object (a `setJob`) is a registry no-op when the record was already
evicted, exactly as in the source, where mutating the no-longer-registered
object is invisible to the `Map`. -/

/-- The synchronous prefix of `executeJob`: state, start time, duration
heuristic and the first progress checkpoint. -/
def startJob (job : Job) (now : Int) : Job :=
  { job with
    state := .processing
    startTime := now
    estimatedDuration :=
      2000 + (job.fileSize : ℚ) / 1024 * 100 + (if job.exportOptions.pdf then 5000 else 0)
    progress := 10 }

/-- The JobManager's mutable fields together with the ghost list `workers`
of job ids currently held by in-flight workers — one entry per worker,
alive from its `activeWorkers++` to its `finally` decrement. -/
structure WState where
  jobs : List (String × Job)
  queue : List String
  activeWorkers : Int
  concurrencyLimit : Int
  workers : List String
deriving Repr

/-- Atomic transitions of the JobManager state.  The three freshness
hypotheses of `addJob` model `randomUUID`: a newly issued id was never
issued before, so it is neither registered, nor queued, nor held by any
worker.  `finish` installs the result of a full `executeJob` run for the
finished worker's job; the record it ran on is existentially quantified
(`job0`), an over-approximation that is sound for the accounting.
`finishThrown` is `processNext`'s catch branch (`state = 'error'`,
`error = 'Internal Server Error'`, applied to the worker's current job
object `job1`) followed by the `finally` decrement.  Both exit steps are
enabled by `id ∈ s.workers` alone: they fire — and decrement — even after
the job's record was evicted by cleanup, in which case their `setJob` is the
identity on the registry. -/
inductive Step : WState → WState → Prop where
  | addJob (s : WState) (j : Job) (hq : j.state = .queued)
      (hfresh : getJob s.jobs j.id = none) (hqf : j.id ∉ s.queue)
      (hwf : j.id ∉ s.workers) :
      Step s { s with jobs := s.jobs ++ [(j.id, j)], queue := s.queue ++ [j.id] }
  | dispatch (s : WState) (id : String) (rest : List String) (job : Job) (now : Int)
      (hcap : s.activeWorkers < s.concurrencyLimit) (hq : s.queue = id :: rest)
      (hjob : getJob s.jobs id = some job) :
      Step s { s with
        activeWorkers := s.activeWorkers + 1
        queue := rest
        jobs := setJob s.jobs id (startJob job now)
        workers := s.workers ++ [id] }
  | dispatchMissing (s : WState) (id : String) (rest : List String)
      (hcap : s.activeWorkers < s.concurrencyLimit) (hq : s.queue = id :: rest)
      (hjob : getJob s.jobs id = none) :
      Step s { s with queue := rest }
  | finish (s : WState) (id : String) (env : ExecEnv) (job0 : Job) (now : Int)
      (hw : id ∈ s.workers) :
      Step s { s with
        activeWorkers := s.activeWorkers - 1
        jobs := setJob s.jobs id (executeJob env job0 now).1
        workers := s.workers.erase id }
  | finishThrown (s : WState) (id : String) (job1 : Job)
      (hw : id ∈ s.workers) :
      Step s { s with
        activeWorkers := s.activeWorkers - 1
        jobs := setJob s.jobs id { job1 with state := .error, error := some "Internal Server Error" }
        workers := s.workers.erase id }
  | cleanup (s : WState) (now : Int) :
      Step s { s with jobs := cleanupStaleJobs now s.jobs }

/-- States reachable from a freshly constructed `JobManager(limit)` (no
jobs, empty queue, zero counter, no in-flight workers). -/
inductive Reachable (limit : Int) : WState → Prop where
  | init : Reachable limit ⟨[], [], 0, limit, []⟩
  | step {s s' : WState} : Reachable limit s → Step s s' → Reachable limit s'

/-- The concurrency-accounting invariant: registry keys are distinct (UUID
keys of a `Map`); worker ids and queued ids are distinct and disjoint (an id
is issued once and is waiting or being worked, never both); every
`processing` registry entry is held by an in-flight worker; `activeWorkers`
counts exactly the in-flight workers; and the workers never exceed the
limit. -/
def Inv (s : WState) : Prop :=
  (s.jobs.map Prod.fst).Nodup ∧
  s.workers.Nodup ∧
  s.queue.Nodup ∧
  (∀ p ∈ s.jobs, p.2.state = JState.processing → p.1 ∈ s.workers) ∧
  (∀ id ∈ s.queue, id ∉ s.workers) ∧
  s.activeWorkers = (s.workers.length : Int) ∧
  (s.workers.length : Int) ≤ s.concurrencyLimit

/-! ## Pipeline executor lemmas and claims about it -/

/-- The progress trace written by `executeJob` is always one of the five
prefixes of the checkpoint schedule. -/
lemma executeJob_trace_cases (env : ExecEnv) (job : Job) (now : Int) :
    (executeJob env job now).2 ∈
      ([[10], [10, 20], [10, 20, 40], [10, 20, 40, 70], [10, 20, 40, 70, 100]] :
        List (List Nat)) := by
  cases hr : env.readOk <;> cases hw : env.writeOk <;> cases hc : env.convertOk <;>
    cases hpdf : job.exportOptions.pdf <;> cases hdocx : job.exportOptions.docx <;>
    cases hpe : env.pdfExecOk <;> cases hpf : env.pdfFileOk <;>
    simp [executeJob, hr, hw, hc, hpdf, hdocx, hpe, hpf]

/-- `executeJob` always leaves the job in a terminal state. -/
lemma executeJob_state_terminal (env : ExecEnv) (job : Job) (now : Int) :
    (executeJob env job now).1.state = .completed ∨
      (executeJob env job now).1.state = .error := by
  cases hr : env.readOk <;> cases hw : env.writeOk <;> cases hc : env.convertOk <;>
    cases hpdf : job.exportOptions.pdf <;> cases hdocx : job.exportOptions.docx <;>
    cases hpe : env.pdfExecOk <;> cases hpf : env.pdfFileOk <;> cases ho : job.outPdf <;>
    simp [executeJob, finishJob, hr, hw, hc, hpdf, hdocx, hpe, hpf, ho]

/-- `executeJob` never touches `estimatedDuration` after computing it at the
start of processing. -/
lemma executeJob_estimatedDuration (env : ExecEnv) (job : Job) (now : Int) :
    (executeJob env job now).1.estimatedDuration =
      2000 + (job.fileSize : ℚ) / 1024 * 100 +
        (if job.exportOptions.pdf then 5000 else 0) := by
  cases hr : env.readOk <;> cases hw : env.writeOk <;> cases hc : env.convertOk <;>
    cases hpdf : job.exportOptions.pdf <;> cases hdocx : job.exportOptions.docx <;>
    cases hpe : env.pdfExecOk <;> cases hpf : env.pdfFileOk <;> cases ho : job.outPdf <;>
    simp [executeJob, finishJob, hr, hw, hc, hpdf, hdocx, hpe, hpf, ho]

/-- A fresh upload record used by the concrete evaluations below. -/
def fileA : UploadedFile := { size := 1024, originalname := "note.md", path := "/tmp/uploads/u1" }

/-- Preprocessor environment with no entities and no cache, used where the
preprocessing outcome is irrelevant. -/
def preEnvA : PreEnv :=
  { internalError := false, entities := [], cache0 := [], downloadOk := fun _ => false }

/-- Environment in which every stage succeeds except that libreoffice exits 0
without producing the expected PDF file (`fs.access` fails). -/
def envPdfGhost : ExecEnv :=
  { readOk := true, content := "hello", pre := preEnvA, writeOk := true, writeErr := ""
    convertOk := true, convertErr := "", pdfExecOk := true, pdfFileOk := false }

/-- Environment in which every stage succeeds except that libreoffice exits
nonzero (`execAsync` rejects). -/
def envPdfExecFail : ExecEnv :=
  { readOk := true, content := "hello", pre := preEnvA, writeOk := true, writeErr := ""
    convertOk := true, convertErr := "", pdfExecOk := false, pdfFileOk := false }

/-- A `\x7bdocx, pdf\x7d` job as admitted by `addJob`. -/
def jobBoth : Job := mkJob "j2" fileA (some ⟨true, true⟩) 0

/-- A pdf-only job as admitted by `addJob`. -/
def jobPdfOnly : Job := mkJob "j3" fileA (some ⟨false, true⟩) 0

/-- C2: for `requestedFormats = \x7bdocx, pdf\x7d` with a successful DOCX
conversion, a nonzero renderer exit indeed yields `completed` with only the
docx output; but in the second failure mode (renderer exits 0 without
producing the PDF) the job completes with `outputs.pdf` still set to the
never-created path, because `executeJob` assigns `outputs.pdf` before the
`fs.access` verification and does not clear it in the catch.  This evaluation
exhibits the failing input for the claim's `no pdf key` part. -/
theorem claim2_ghost_pdf_output_eval :
    ((executeJob envPdfGhost jobBoth 0).1.state = JState.completed ∧
      (executeJob envPdfGhost jobBoth 0).1.outDocx = some "/tmp/output-j2.docx" ∧
      (executeJob envPdfGhost jobBoth 0).1.outPdf = some "/tmp/output-j2.pdf") ∧
    ((executeJob envPdfExecFail jobBoth 0).1.state = JState.completed ∧
      (executeJob envPdfExecFail jobBoth 0).1.outDocx = some "/tmp/output-j2.docx" ∧
      (executeJob envPdfExecFail jobBoth 0).1.outPdf = none) := by
  decide

/-- C3: for `requestedFormats = \x7bpdf\x7d` only, a failed rendering indeed
ends the job in `state = error`, and under a nonzero renderer exit `outputs`
is empty as claimed; but in the second failure mode (renderer exits 0 without
producing the PDF) `outputs.pdf` remains set to the never-created path, so
the outputs mapping is not empty.  This evaluation exhibits the failing
input. -/
theorem claim3_pdf_only_error_outputs_eval :
    ((executeJob envPdfGhost jobPdfOnly 0).1.state = JState.error ∧
      (executeJob envPdfGhost jobPdfOnly 0).1.error = some "PDF generation failed" ∧
      (executeJob envPdfGhost jobPdfOnly 0).1.outDocx = none ∧
      (executeJob envPdfGhost jobPdfOnly 0).1.outPdf = some "/tmp/output-j3.pdf") ∧
    ((executeJob envPdfExecFail jobPdfOnly 0).1.state = JState.error ∧
      (executeJob envPdfExecFail jobPdfOnly 0).1.error = some "PDF generation failed" ∧
      (executeJob envPdfExecFail jobPdfOnly 0).1.outDocx = none ∧
      (executeJob envPdfExecFail jobPdfOnly 0).1.outPdf = none) := by
  decide

/-- C4: over a job's lifetime the progress values (0 at admission followed by
the values `executeJob` writes) form a monotonically non-decreasing sequence
that is a prefix of the fixed checkpoint schedule 0, 10, 20, 40, 70, 100 —
so progress only takes checkpoint values and is never decremented. -/
theorem claim4_progress_checkpoint_schedule (env : ExecEnv) (job : Job) (now : Int) :
    List.Chain' (· ≤ ·) (0 :: (executeJob env job now).2) ∧
    (0 :: (executeJob env job now).2) <+: [0, 10, 20, 40, 70, 100] := by
  have h := executeJob_trace_cases env job now
  simp only [List.mem_cons, List.not_mem_nil, or_false] at h
  rcases h with h | h | h | h | h <;> rw [h]
  · exact ⟨by norm_num [List.chain'_cons], ⟨[20, 40, 70, 100], rfl⟩⟩
  · exact ⟨by norm_num [List.chain'_cons], ⟨[40, 70, 100], rfl⟩⟩
  · exact ⟨by norm_num [List.chain'_cons], ⟨[70, 100], rfl⟩⟩
  · exact ⟨by norm_num [List.chain'_cons], ⟨[100], rfl⟩⟩
  · exact ⟨by norm_num [List.chain'_cons], ⟨[], by simp⟩⟩

/-! ## Time-left estimator (claim C9) -/

/-- Clamping at 0 commutes with ceiling division by 1000: the code's
`Math.max(0, Math.ceil(x / 1000))` equals the spec's `max(0, x)` rounded up
to whole seconds. -/
lemma max_zero_ceil_div_1000 (q : ℚ) : max 0 ⌈q / 1000⌉ = ⌈(max 0 q) / 1000⌉ := by
  rcases le_total q 0 with h | h
  · have h1 : (q / 1000 : ℚ) ≤ 0 := by linarith
    have h2 : (⌈(q / 1000 : ℚ)⌉ : ℤ) ≤ 0 := Int.ceil_le.mpr (by exact_mod_cast h1)
    rw [max_eq_left h2, max_eq_left h, zero_div, Int.ceil_zero]
  · have h1 : (0 : ℚ) ≤ q / 1000 := by linarith
    rw [max_eq_right (Int.ceil_nonneg h1), max_eq_right h]

/-- C9: the reported time-left is `max(0, estimatedDuration − elapsed)`
rounded up to whole seconds while processing, `(queue position + 1) × 3`
seconds while queued and present in the queue, and 0 in every other case;
and `executeJob` computes `estimatedDuration` once at the start of
processing from the file size and the pdf flag. -/
theorem claim9_time_left_estimator (queue : List String) (job : Job) (now : Int) :
    (job.state = .processing →
      calculateTimeLeft queue job now =
        ⌈(max 0 (job.estimatedDuration - ((now - job.startTime : Int) : ℚ))) / 1000⌉) ∧
    (job.state = .queued → ∀ p : Nat, queue.findIdx? (fun x => x = job.id) = some p →
      calculateTimeLeft queue job now = ((p : Int) + 1) * 3) ∧
    (job.state = .queued → queue.findIdx? (fun x => x = job.id) = none →
      calculateTimeLeft queue job now = 0) ∧
    (job.state ≠ .processing → job.state ≠ .queued → calculateTimeLeft queue job now = 0) ∧
    (∀ (env : ExecEnv) (start : Int),
      (executeJob env job start).1.estimatedDuration =
        2000 + (job.fileSize : ℚ) / 1024 * 100 +
          (if job.exportOptions.pdf then 5000 else 0)) := by
  refine ⟨?_, ?_, ?_, ?_, fun env start => executeJob_estimatedDuration env job start⟩
  · intro h
    rw [calculateTimeLeft, if_pos h, max_zero_ceil_div_1000]
  · intro h p hp
    have hnp : ¬ job.state = JState.processing := by simp [h]
    simp [calculateTimeLeft, hnp, h, hp]
  · intro h hp
    have hnp : ¬ job.state = JState.processing := by simp [h]
    simp [calculateTimeLeft, hnp, h, hp]
  · intro h1 h2
    simp [calculateTimeLeft, h1, h2]

/-- A job snapshot mid-processing, used to instantiate C9. -/
def jobProc : Job := { jobBoth with state := .processing, startTime := 0, estimatedDuration := 2500 }

/-- Witness for C9: concrete instantiations of the processing and queued
cases. -/
theorem claim9_time_left_estimator_witness :
    calculateTimeLeft [] jobProc 1000 =
      ⌈(max 0 (jobProc.estimatedDuration - ((1000 - jobProc.startTime : Int) : ℚ))) / 1000⌉ ∧
    calculateTimeLeft ["x", "j2"] jobBoth 0 = ((1 : Int) + 1) * 3 :=
  ⟨(claim9_time_left_estimator [] jobProc 1000).1 rfl,
    (claim9_time_left_estimator ["x", "j2"] jobBoth 0).2.1 rfl 1 (by decide)⟩

/-! ## Cleanup and status polling (claim C8) -/

/-- Lookup at a matching head entry. -/
lemma getJob_cons_pos (p : String × Job) (rest : List (String × Job)) (id : String)
    (hc : p.1 = id) : getJob (p :: rest) id = some p.2 := by
  unfold getJob
  rw [List.find?_cons_of_pos _ (by simpa using hc)]
  rfl

/-- Lookup skips a non-matching head entry. -/
lemma getJob_cons_neg (p : String × Job) (rest : List (String × Job)) (id : String)
    (hc : ¬ p.1 = id) : getJob (p :: rest) id = getJob rest id := by
  unfold getJob
  rw [List.find?_cons_of_neg _ (by simpa using hc)]

/-- A lookup misses exactly when no entry carries the key. -/
lemma getJob_eq_none (jobs : List (String × Job)) (id : String) :
    getJob jobs id = none ↔ ∀ p ∈ jobs, p.1 ≠ id := by
  unfold getJob
  rw [Option.map_eq_none', List.find?_eq_none]
  simp

/-- Looking a key up after a `filter` on a key-distinct association list:
the entry survives exactly when the predicate keeps it. -/
lemma getJob_filter (P : String × Job → Bool) (jobs : List (String × Job)) (id : String)
    (j : Job) (hnd : (jobs.map Prod.fst).Nodup) (hget : getJob jobs id = some j) :
    getJob (jobs.filter P) id = if P (id, j) then some j else none := by
  induction jobs with
  | nil => simp [getJob] at hget
  | cons p rest ih =>
    simp only [List.map_cons, List.nodup_cons] at hnd
    obtain ⟨hnotin, hnd'⟩ := hnd
    by_cases hc : p.1 = id
    · have hp2 : p.2 = j := by
        rw [getJob_cons_pos p rest id hc] at hget
        exact Option.some_injective _ hget
      have hpj : p = (id, j) := by
        rw [← hc, ← hp2]
      cases hP : P p
      · rw [List.filter_cons_of_neg (by simp [hP])]
        have hnone : getJob (List.filter P rest) id = none := by
          rw [getJob_eq_none]
          intro x hx hx1
          exact (hc ▸ hnotin) (hx1 ▸ List.mem_map_of_mem Prod.fst (List.mem_of_mem_filter hx))
        rw [hnone, if_neg (by rw [← hpj, hP]; simp)]
      · rw [List.filter_cons_of_pos (by simp [hP])]
        rw [if_pos (by rw [← hpj]; exact hP)]
        rw [getJob_cons_pos p _ id hc, hp2]
    · have hget' : getJob rest id = some j := by
        rw [getJob_cons_neg p rest id hc] at hget
        exact hget
      have hrec := ih hnd' hget'
      cases hP : P p
      · rw [List.filter_cons_of_neg (by simp [hP])]
        exact hrec
      · rw [List.filter_cons_of_pos (by simp [hP]), getJob_cons_neg p _ id hc]
        exact hrec

/-- C8: the time-driven cleanup evicts exactly the jobs whose creation time
is older than the one-hour horizon — regardless of any other field — and an
evicted job's status poll answers the not-found error, while jobs at or
inside the horizon survive with their record intact. -/
theorem claim8_cleanup_eviction_horizon (now : Int) (jobs : List (String × Job))
    (queue : List String) (id : String) (j : Job)
    (hnd : (jobs.map Prod.fst).Nodup) (hget : getJob jobs id = some j) :
    (j.created < now - 60 * 60 * 1000 →
      getJob (cleanupStaleJobs now jobs) id = none ∧
      statusHandler (cleanupStaleJobs now jobs) queue id now = .notFound "Job not found") ∧
    (now - 60 * 60 * 1000 ≤ j.created →
      getJob (cleanupStaleJobs now jobs) id = some j) := by
  have h := getJob_filter (fun p => !decide (p.2.created < now - 60 * 60 * 1000))
    jobs id j hnd hget
  constructor
  · intro hold
    have hnone : getJob (cleanupStaleJobs now jobs) id = none := by
      rw [cleanupStaleJobs, h]
      simp only [Bool.not_eq_true', decide_eq_false_iff_not, not_lt, ite_eq_right_iff]
      omega
    exact ⟨hnone, by simp [statusHandler, hnone]⟩
  · intro hyoung
    rw [cleanupStaleJobs, h]
    simp only [Bool.not_eq_true', decide_eq_false_iff_not, not_lt]
    rw [if_pos hyoung]

/-- Witness for C8: a job created at time 0 is evicted by a cleanup run one
hour and one second later, and its status poll then 404s; a job created one
second inside the horizon survives. -/
theorem claim8_cleanup_eviction_horizon_witness :
    (getJob (cleanupStaleJobs 3601000 [("j2", jobBoth)]) "j2" = none ∧
      statusHandler (cleanupStaleJobs 3601000 [("j2", jobBoth)]) [] "j2" 3601000 =
        .notFound "Job not found") ∧
    getJob (cleanupStaleJobs 3599000 [("j2", jobBoth)]) "j2" = some jobBoth :=
  ⟨(claim8_cleanup_eviction_horizon 3601000 [("j2", jobBoth)] [] "j2" jobBoth
      (by decide) (by decide)).1 (by decide),
    (claim8_cleanup_eviction_horizon 3599000 [("j2", jobBoth)] [] "j2" jobBoth
      (by decide) (by decide)).2 (by decide)⟩

/-! ## Upload admission with malformed export options (claim C10) -/

/-- Appending a fresh key to an association list makes it found. -/
lemma getJob_append_fresh (jobs : List (String × Job)) (id : String) (j : Job)
    (hfresh : getJob jobs id = none) :
    getJob (jobs ++ [(id, j)]) id = some j := by
  have hf : jobs.find? (fun p => p.1 = id) = none := by
    simpa [getJob, Option.map_eq_none'] using hfresh
  simp [getJob, List.find?_append, hf]

/-- C10: an upload whose `exportOptions` field is absent or fails to parse is
still admitted — the handler answers with the job id — and the stored job
runs with the default format set docx = true, pdf = false. -/
theorem claim10_malformed_options_default (s : MState) (file : UploadedFile)
    (expField : Option String) (parseJson : String → Option (Option ExportOptions))
    (newId : String) (now : Int)
    (hfresh : getJob s.jobs newId = none)
    (hmal : expField = none ∨ ∃ str, expField = some str ∧ parseJson str = none) :
    (uploadHandler s (some file) expField parseJson newId now).2 = .ok newId ∧
    getJob (uploadHandler s (some file) expField parseJson newId now).1.jobs newId =
      some (mkJob newId file (some ⟨true, false⟩) now) ∧
    (mkJob newId file (some ⟨true, false⟩) now).exportOptions = ⟨true, false⟩ ∧
    (mkJob newId file (some ⟨true, false⟩) now).state = .queued := by
  rcases hmal with rfl | ⟨str, rfl, hp⟩
  · refine ⟨by simp [uploadHandler, addJob], ?_, rfl, rfl⟩
    simp only [uploadHandler, addJob]
    exact getJob_append_fresh s.jobs newId _ hfresh
  · refine ⟨by simp [uploadHandler, addJob, hp], ?_, rfl, rfl⟩
    simp only [uploadHandler, addJob, hp]
    exact getJob_append_fresh s.jobs newId _ hfresh

/-- The initial manager state `new JobManager(1)`. -/
def mState0 : MState := ⟨[], [], 0, 1⟩

/-- Witness for C10: a concrete upload with an unparseable `exportOptions`
field is admitted with the default format set. -/
theorem claim10_malformed_options_default_witness :
    (uploadHandler mState0 (some fileA) (some "!!") (fun _ => none) "u1" 5).2 = .ok "u1" ∧
    getJob (uploadHandler mState0 (some fileA) (some "!!") (fun _ => none) "u1" 5).1.jobs "u1" =
      some (mkJob "u1" fileA (some ⟨true, false⟩) 5) ∧
    (mkJob "u1" fileA (some ⟨true, false⟩) 5).exportOptions = ⟨true, false⟩ ∧
    (mkJob "u1" fileA (some ⟨true, false⟩) 5).state = .queued :=
  claim10_malformed_options_default mState0 fileA (some "!!") (fun _ => none) "u1" 5
    rfl (Or.inr ⟨"!!", rfl, rfl⟩)

/-! ## Concurrency invariant (claim C1) -/

/-- `setJob` never changes the key list. -/
lemma keys_setJob (jobs : List (String × Job)) (id : String) (j : Job) :
    (setJob jobs id j).map Prod.fst = jobs.map Prod.fst := by
  unfold setJob
  rw [List.map_map]
  apply List.map_congr_left
  intro p _
  by_cases hc : p.1 = id <;> simp [hc]

/-- Membership in a `setJob` result: an entry is either an untouched entry
under another key, or the replacement record under the updated key. -/
lemma mem_setJob {jobs : List (String × Job)} {id : String} {j' : Job}
    {p' : String × Job} (h : p' ∈ setJob jobs id j') :
    (p' ∈ jobs ∧ p'.1 ≠ id) ∨ p' = (id, j') := by
  unfold setJob at h
  obtain ⟨p, hp, hf⟩ := List.mem_map.mp h
  by_cases hc : p.1 = id
  · right
    rw [if_pos hc] at hf
    rw [← hf, hc]
  · left
    rw [if_neg hc] at hf
    subst hf
    exact ⟨hp, hc⟩

/-- Key-distinct registry entries in state `processing`, each held by some
worker, are no more numerous than the workers. -/
lemma processingCount_le_length (jobs : List (String × Job)) (ws : List String)
    (hnd : (jobs.map Prod.fst).Nodup)
    (hmem : ∀ p ∈ jobs, p.2.state = JState.processing → p.1 ∈ ws) :
    processingCount jobs ≤ ws.length := by
  unfold processingCount
  rw [List.countP_eq_length_filter]
  have hkey : ((jobs.filter (fun p => p.2.state == JState.processing)).map Prod.fst).Nodup :=
    List.Nodup.sublist ((List.filter_sublist jobs).map Prod.fst) hnd
  have hsubset : ((jobs.filter (fun p => p.2.state == JState.processing)).map Prod.fst) ⊆ ws := by
    intro x hx
    obtain ⟨p, hp, hp1⟩ := List.mem_map.mp hx
    have hpj : p ∈ jobs := List.mem_of_mem_filter hp
    have hps := @List.of_mem_filter _ (fun p : String × Job => p.2.state == JState.processing)
      p jobs hp
    exact hp1 ▸ hmem p hpj (by simpa using hps)
  have hlen := (List.Nodup.subperm hkey hsubset).length_le
  simpa using hlen

/-- Every scheduler step preserves the concurrency-accounting invariant and
leaves the configured limit unchanged.  The two worker-exit steps decrement
`activeWorkers` unconditionally — also when the worker's record was evicted
mid-run — and the invariant survives them because the ghost worker list
shrinks with the counter. -/
lemma step_preserves_inv {s s' : WState} (hstep : Step s s') (hI : Inv s) :
    Inv s' ∧ s'.concurrencyLimit = s.concurrencyLimit := by
  obtain ⟨hnd, hndw, hndq, hmem, hdisj, hact, hlim⟩ := hI
  cases hstep with
  | addJob j hq hfresh hqf hwf =>
    refine ⟨⟨?_, hndw, ?_, ?_, ?_, hact, hlim⟩, rfl⟩
    · rw [List.map_append, List.nodup_append]
      refine ⟨hnd, by simp, ?_⟩
      intro a ha hamem
      simp only [List.map_cons, List.map_nil, List.mem_singleton] at hamem
      subst hamem
      rw [getJob_eq_none] at hfresh
      obtain ⟨p, hp, hp1⟩ := List.mem_map.mp ha
      exact hfresh p hp hp1
    · rw [List.nodup_append]
      refine ⟨hndq, by simp, ?_⟩
      intro a ha hamem
      simp only [List.mem_cons, List.not_mem_nil, or_false] at hamem
      subst hamem
      exact hqf ha
    · intro p hp hps
      rcases List.mem_append.mp hp with hp | hp
      · exact hmem p hp hps
      · simp only [List.mem_singleton] at hp
        subst hp
        simp [hq] at hps
    · intro x hx
      rcases List.mem_append.mp hx with hx | hx
      · exact hdisj x hx
      · simp only [List.mem_cons, List.not_mem_nil, or_false] at hx
        subst hx
        exact hwf
  | dispatch id rest job now hcap hq hjob =>
    have hidq : id ∈ s.queue := by rw [hq]; exact List.mem_cons_self id rest
    have hidw : id ∉ s.workers := hdisj id hidq
    have hqparts := List.nodup_cons.mp (hq ▸ hndq)
    refine ⟨⟨?_, ?_, hqparts.2, ?_, ?_, ?_, ?_⟩, rfl⟩
    · dsimp only
      rw [keys_setJob]
      exact hnd
    · dsimp only
      rw [List.nodup_append]
      refine ⟨hndw, by simp, ?_⟩
      intro a ha hamem
      simp only [List.mem_cons, List.not_mem_nil, or_false] at hamem
      subst hamem
      exact hidw ha
    · dsimp only
      intro p hp hps
      rcases mem_setJob hp with ⟨hpj, hpne⟩ | hpeq
      · exact List.mem_append.mpr (Or.inl (hmem p hpj hps))
      · subst hpeq
        exact List.mem_append.mpr (Or.inr (by simp))
    · dsimp only
      intro x hx hxw
      rcases List.mem_append.mp hxw with hxw | hxw
      · exact hdisj x (by rw [hq]; exact List.mem_cons_of_mem id hx) hxw
      · simp only [List.mem_cons, List.not_mem_nil, or_false] at hxw
        subst hxw
        exact hqparts.1 hx
    · dsimp only
      simp only [List.length_append, List.length_cons, List.length_nil]
      push_cast
      omega
    · dsimp only
      simp only [List.length_append, List.length_cons, List.length_nil]
      push_cast
      omega
  | dispatchMissing id rest hcap hq hjob =>
    have hqparts := List.nodup_cons.mp (hq ▸ hndq)
    refine ⟨⟨hnd, hndw, hqparts.2, hmem, ?_, hact, hlim⟩, rfl⟩
    intro x hx
    exact hdisj x (by rw [hq]; exact List.mem_cons_of_mem id hx)
  | finish id env job0 now hw =>
    have h1 : 1 ≤ s.workers.length := List.length_pos.mpr (List.ne_nil_of_mem hw)
    refine ⟨⟨?_, ?_, hndq, ?_, ?_, ?_, ?_⟩, rfl⟩
    · dsimp only
      rw [keys_setJob]
      exact hnd
    · dsimp only
      exact hndw.erase id
    · dsimp only
      intro p hp hps
      rcases mem_setJob hp with ⟨hpj, hpne⟩ | hpeq
      · exact (List.mem_erase_of_ne hpne).mpr (hmem p hpj hps)
      · subst hpeq
        dsimp only at hps
        rcases executeJob_state_terminal env job0 now with h | h <;> rw [h] at hps <;>
          simp at hps
    · dsimp only
      intro x hx hxw
      exact hdisj x hx (List.mem_of_mem_erase hxw)
    · dsimp only
      rw [List.length_erase_of_mem hw]
      omega
    · dsimp only
      rw [List.length_erase_of_mem hw]
      omega
  | finishThrown id job1 hw =>
    have h1 : 1 ≤ s.workers.length := List.length_pos.mpr (List.ne_nil_of_mem hw)
    refine ⟨⟨?_, ?_, hndq, ?_, ?_, ?_, ?_⟩, rfl⟩
    · dsimp only
      rw [keys_setJob]
      exact hnd
    · dsimp only
      exact hndw.erase id
    · dsimp only
      intro p hp hps
      rcases mem_setJob hp with ⟨hpj, hpne⟩ | hpeq
      · exact (List.mem_erase_of_ne hpne).mpr (hmem p hpj hps)
      · subst hpeq
        simp at hps
    · dsimp only
      intro x hx hxw
      exact hdisj x hx (List.mem_of_mem_erase hxw)
    · dsimp only
      rw [List.length_erase_of_mem hw]
      omega
    · dsimp only
      rw [List.length_erase_of_mem hw]
      omega
  | cleanup now =>
    refine ⟨⟨?_, hndw, hndq, ?_, hdisj, hact, hlim⟩, rfl⟩
    · exact List.Nodup.sublist ((List.filter_sublist s.jobs).map Prod.fst) hnd
    · intro p hp hps
      exact hmem p (List.mem_of_mem_filter hp) hps

/-- C1: in every scheduler state reachable from a freshly constructed
`JobManager(limit)` (for the deployed manager, `limit = 1`), at most `limit`
registry entries are in state `processing`, and the shared `activeWorkers`
counter — incremented atomically at dispatch and decremented unconditionally
on every worker exit, including the path where pipeline execution throws and
the path where the job's record was already evicted mid-run — never exceeds
`limit`, so no exit path permanently reduces the available slots. -/
theorem claim1_concurrency_limit (limit : Int) (hl : 0 ≤ limit) (s : WState)
    (hr : Reachable limit s) :
    (processingCount s.jobs : Int) ≤ limit ∧ s.activeWorkers ≤ limit := by
  have key : Inv s ∧ s.concurrencyLimit = limit := by
    induction hr with
    | init =>
      exact ⟨⟨by simp, by simp, by simp, by simp, by simp, by simp, by simpa using hl⟩, rfl⟩
    | step hr hstep ih =>
      obtain ⟨hI, hcl⟩ := ih
      obtain ⟨hI2, hcl2⟩ := step_preserves_inv hstep hI
      exact ⟨hI2, hcl2.trans hcl⟩
  obtain ⟨⟨hnd, hndw, hndq, hmem, hdisj, hact, hlim⟩, hcl⟩ := key
  have hple := processingCount_le_length s.jobs s.workers hnd hmem
  constructor <;> omega

/-- The scheduler state of a freshly constructed `JobManager(1)`. -/
def wState0 : WState := ⟨[], [], 0, 1, []⟩

/-- Witness for C1: the freshly constructed deployed manager satisfies the
bound. -/
theorem claim1_concurrency_limit_witness :
    (processingCount wState0.jobs : Int) ≤ 1 ∧ wState0.activeWorkers ≤ 1 :=
  claim1_concurrency_limit 1 (by norm_num) wState0 Reachable.init

/-! ## Preprocessor lemmas and claims (C5, C6) -/

/-- A successful head match decomposes the list as pattern ++ remainder. -/
lemma isMatch_append (pat : List Char) : ∀ (l : List Char), isMatch pat l = true →
    l = pat ++ l.drop pat.length := by
  induction pat with
  | nil => intro l _; simp
  | cons p ps ih =>
    intro l h
    cases l with
    | nil => simp [isMatch] at h
    | cons c cs =>
      simp only [isMatch, Bool.and_eq_true, decide_eq_true_eq] at h
      obtain ⟨rfl, h2⟩ := h
      simp only [List.length_cons, List.drop_succ_cons, List.cons_append]
      exact congrArg (List.cons p) (ih cs h2)

/-- The global replacement scanner decomposes its input into the segments
between found occurrences of the pattern and rewrites every found occurrence
to the identical replacement string. -/
lemma replaceAllAux_joinWith (pat rep : List Char) (s : List Char) :
    ∃ parts : List (List Char), parts ≠ [] ∧ s = joinWith pat parts ∧
      replaceAllAux pat rep s = joinWith rep parts := by
  suffices h : ∀ (n : Nat) (s : List Char), s.length ≤ n → ∃ parts : List (List Char),
      parts ≠ [] ∧ s = joinWith pat parts ∧ replaceAllAux pat rep s = joinWith rep parts from
    h s.length s le_rfl
  intro n
  induction n with
  | zero =>
    intro s hs
    have hnil : s = [] := List.length_eq_zero.mp (Nat.le_zero.mp hs)
    subst hnil
    exact ⟨[[]], by simp, by simp [joinWith], by simp [replaceAllAux, joinWith]⟩
  | succ n ih =>
    intro s hs
    cases s with
    | nil => exact ⟨[[]], by simp, by simp [joinWith], by simp [replaceAllAux, joinWith]⟩
    | cons c cs =>
      simp only [List.length_cons, Nat.succ_le_succ_iff] at hs
      by_cases hm : 0 < pat.length ∧ isMatch pat (c :: cs) = true
      · obtain ⟨hp, hmatch⟩ := hm
        obtain ⟨parts, hne, h1, h2⟩ := ih (cs.drop (pat.length - 1)) (by
          simp only [List.length_drop]
          omega)
        obtain ⟨p0, ps, rfl⟩ := List.exists_cons_of_ne_nil hne
        have hpatne : pat ≠ [] := by
          intro hE
          rw [hE] at hp
          simp at hp
        have hd : c :: cs = pat ++ cs.drop (pat.length - 1) := by
          have happ := isMatch_append pat (c :: cs) hmatch
          obtain ⟨q, qs, rfl⟩ := List.exists_cons_of_ne_nil hpatne
          simpa [List.drop_succ_cons] using happ
        refine ⟨[] :: p0 :: ps, by simp, ?_, ?_⟩
        · rw [hd, h1]
          simp [joinWith]
        · conv_lhs => rw [replaceAllAux]
          rw [if_pos ⟨hp, hmatch⟩, h2]
          simp [joinWith]
      · obtain ⟨parts, hne, h1, h2⟩ := ih cs hs
        obtain ⟨p0, ps, rfl⟩ := List.exists_cons_of_ne_nil hne
        refine ⟨(c :: p0) :: ps, by simp, ?_, ?_⟩
        · cases ps with
          | nil => simp only [joinWith] at h1 ⊢; exact congrArg (List.cons c) h1
          | cons y ys =>
            simp only [joinWith, List.cons_append] at h1 ⊢
            exact congrArg (List.cons c) h1
        · conv_lhs => rw [replaceAllAux]
          rw [if_neg hm, h2]
          cases ps with
          | nil => simp [joinWith]
          | cons y ys => simp [joinWith]

/-- `Map.set` preserves distinctness of the token keys. -/
lemma mapInsert_nodup (m : List Entity) (e : Entity)
    (h : (m.map (fun x => x.text)).Nodup) :
    ((mapInsert m e).map (fun x => x.text)).Nodup := by
  unfold mapInsert
  split
  · have heq : (m.map (fun x => if x.text = e.text then e else x)).map (fun x => x.text)
        = m.map (fun x => x.text) := by
      rw [List.map_map]
      apply List.map_congr_left
      intro x _
      by_cases hxe : x.text = e.text <;> simp [hxe]
    rw [heq]
    exact h
  · rename_i hany
    rw [List.map_append, List.nodup_append]
    refine ⟨h, by simp, ?_⟩
    intro a ha hamem
    simp only [List.map_cons, List.map_nil, List.mem_singleton] at hamem
    subst hamem
    obtain ⟨x, hx, hx1⟩ := List.mem_map.mp ha
    exact hany (List.any_eq_true.mpr ⟨x, hx, by simp [hx1]⟩)

/-- The deduplicated entity list has pairwise-distinct token texts. -/
lemma uniqueEntities_nodup (es : List Entity) :
    ((uniqueEntities es).map (fun x => x.text)).Nodup := by
  unfold uniqueEntities
  suffices h : ∀ (acc : List Entity), (acc.map (fun x => x.text)).Nodup →
      ((es.foldl mapInsert acc).map (fun x => x.text)).Nodup from h [] (by simp)
  induction es with
  | nil => intro acc h; simpa using h
  | cons e es ih =>
    intro acc h
    rw [List.foldl_cons]
    exact ih _ (mapInsert_nodup acc e h)

/-- Each loop iteration performs exactly one cache lookup, for its own
token. -/
lemma processEntity_lookups (env : PreEnv) (st : PreState) (e : Entity) :
    (processEntity env st e).lookups = st.lookups ++ [e.text] := by
  unfold processEntity
  dsimp only
  split
  · rfl
  · split <;> rfl

/-- Each loop iteration attempts at most one download, for its own token. -/
lemma processEntity_fetches (env : PreEnv) (st : PreState) (e : Entity) :
    (processEntity env st e).fetches = st.fetches ∨
      (processEntity env st e).fetches = st.fetches ++ [e.text] := by
  unfold processEntity
  dsimp only
  split
  · exact Or.inl rfl
  · split <;> exact Or.inr rfl

/-- The lookup log of the whole loop is exactly the token list of the
processed entities. -/
lemma foldl_lookups (env : PreEnv) : ∀ (es : List Entity) (st : PreState),
    (es.foldl (processEntity env) st).lookups = st.lookups ++ es.map (fun e => e.text) := by
  intro es
  induction es with
  | nil => intro st; simp
  | cons e es ih =>
    intro st
    rw [List.foldl_cons, ih, processEntity_lookups]
    simp

/-- The download log is a sublist of the lookup log. -/
lemma foldl_fetches_sublist (env : PreEnv) : ∀ (es : List Entity) (st : PreState),
    List.Sublist st.fetches st.lookups →
    List.Sublist (es.foldl (processEntity env) st).fetches
      (es.foldl (processEntity env) st).lookups := by
  intro es
  induction es with
  | nil => intro st h; simpa using h
  | cons e es ih =>
    intro st h
    rw [List.foldl_cons]
    apply ih
    rw [processEntity_lookups]
    rcases processEntity_fetches env st e with hf | hf <;> rw [hf]
    · exact h.trans (List.sublist_append_left _ _)
    · exact List.Sublist.append h (List.Sublist.refl _)

/-- When a token resolves (cache hit, or miss with a successful download),
the iteration rewrites the text by one global replacement with the token's
asset reference. -/
lemma processEntity_text_resolved (env : PreEnv) (st : PreState) (e : Entity)
    (h : st.cache.contains (finalName e.url) = true ∨
      env.downloadOk (finalName e.url) = true) :
    (processEntity env st e).text = replaceAll e.text (assetRef (localPath e)) st.text := by
  unfold processEntity localPath
  by_cases hc : st.cache.contains (finalName e.url) = true
  · dsimp only
    rw [if_pos hc]
  · rcases h with h | h
    · exact absurd h hc
    · dsimp only
      rw [if_neg hc, if_pos h]

/-- C5: each distinct token triggers at most one cache lookup and at most one
download attempt even when it occurs several times in the input (the logs
count at most one event per token text), and whenever a token resolves to a
cached asset, the iteration rewrites the text by decomposing it at the
occurrences of the token and joining the segments back with one identical
asset-reference string (the pandoc image syntax for the local cache path at
the fixed 1em×1em size). -/
theorem claim5_dedup_and_identical_rewrite :
    (∀ (env : PreEnv) (markdown : String) (t : String),
      (preprocessMarkdown env markdown).lookups.count t ≤ 1 ∧
      (preprocessMarkdown env markdown).fetches.count t ≤ 1) ∧
    (∀ (env : PreEnv) (st : PreState) (e : Entity),
      (st.cache.contains (finalName e.url) = true ∨
        env.downloadOk (finalName e.url) = true) →
      ∃ parts : List (List Char), parts ≠ [] ∧
        st.text.data = joinWith e.text.data parts ∧
        (processEntity env st e).text.data =
          joinWith (assetRef (localPath e)).data parts) := by
  constructor
  · intro env markdown t
    unfold preprocessMarkdown
    split
    · simp
    · have hlk := foldl_lookups env (uniqueEntities env.entities)
        ⟨markdown, env.cache0, [], []⟩
      have hnodup := uniqueEntities_nodup env.entities
      have hcount : ((uniqueEntities env.entities).map (fun e => e.text)).count t ≤ 1 :=
        List.nodup_iff_count_le_one.mp hnodup t
      constructor
      · rw [hlk]
        simpa using hcount
      · have hsub := foldl_fetches_sublist env (uniqueEntities env.entities)
          ⟨markdown, env.cache0, [], []⟩ (by simp)
        have hle := List.Sublist.count_le hsub t
        calc ((uniqueEntities env.entities).foldl (processEntity env)
              ⟨markdown, env.cache0, [], []⟩).fetches.count t
            ≤ ((uniqueEntities env.entities).foldl (processEntity env)
              ⟨markdown, env.cache0, [], []⟩).lookups.count t := hle
          _ ≤ 1 := by rw [hlk]; simpa using hcount
  · intro env st e h
    obtain ⟨parts, hne, h1, h2⟩ :=
      replaceAllAux_joinWith e.text.data (assetRef (localPath e)).data st.text.data
    refine ⟨parts, hne, h1, ?_⟩
    rw [processEntity_text_resolved env st e h]
    exact h2

/-- A concrete entity, preprocessor environment and state used to instantiate
C5 and C6. -/
def entE : Entity := { text := "E", url := "u/f.png" }

/-- Preprocessor environment whose parse finds `entE` twice and whose CDN
always succeeds. -/
def envDl : PreEnv :=
  { internalError := false, entities := [entE, entE], cache0 := [], downloadOk := fun _ => true }

/-- Preprocessor environment whose CDN always fails. -/
def envNoDl : PreEnv :=
  { internalError := false, entities := [entE], cache0 := [], downloadOk := fun _ => false }

/-- Preprocessor environment in which the surrounding try/catch fires. -/
def envThrow : PreEnv :=
  { internalError := true, entities := [], cache0 := [], downloadOk := fun _ => false }

/-- A concrete preprocessing state holding the text `xEyE`. -/
def stE : PreState := { text := "xEyE", cache := [], lookups := [], fetches := [] }

/-- Witness for C5: a token occurring twice triggers at most one lookup and
one download, and the rewrite of a resolving token is a join with one
identical asset-reference string. -/
theorem claim5_dedup_and_identical_rewrite_witness :
    (preprocessMarkdown envDl "xEyE").lookups.count "E" ≤ 1 ∧
    (preprocessMarkdown envDl "xEyE").fetches.count "E" ≤ 1 ∧
    ∃ parts : List (List Char), parts ≠ [] ∧
      stE.text.data = joinWith "E".data parts ∧
      (processEntity envDl stE entE).text.data =
        joinWith (assetRef (localPath entE)).data parts :=
  ⟨(claim5_dedup_and_identical_rewrite.1 envDl "xEyE" "E").1,
    (claim5_dedup_and_identical_rewrite.1 envDl "xEyE" "E").2,
    claim5_dedup_and_identical_rewrite.2 envDl stE entE (Or.inr rfl)⟩

/-- A failed download leaves the text and the cache untouched (only the ghost
logs record the attempt). -/
lemma processEntity_skip (env : PreEnv) (st : PreState) (e : Entity)
    (hc : st.cache.contains (finalName e.url) = false)
    (hd : env.downloadOk (finalName e.url) = false) :
    (processEntity env st e).text = st.text ∧ (processEntity env st e).cache = st.cache := by
  unfold processEntity
  dsimp only
  rw [if_neg (by rw [hc]; simp), if_neg (by rw [hd]; simp)]
  exact ⟨rfl, rfl⟩

/-- One loop iteration reads only the text and cache of the incoming state
(the logs are ghost), so equal text/cache inputs give equal text/cache
outputs. -/
lemma processEntity_text_cache_congr (env : PreEnv) (st₁ st₂ : PreState) (e : Entity)
    (ht : st₁.text = st₂.text) (hcache : st₁.cache = st₂.cache) :
    (processEntity env st₁ e).text = (processEntity env st₂ e).text ∧
      (processEntity env st₁ e).cache = (processEntity env st₂ e).cache := by
  unfold processEntity
  dsimp only
  rw [ht, hcache]
  split
  · exact ⟨rfl, rfl⟩
  · split <;> exact ⟨rfl, rfl⟩

/-- The loop's final text depends only on the text and cache of the starting
state. -/
lemma foldl_text_cache_congr (env : PreEnv) : ∀ (es : List Entity) (st₁ st₂ : PreState),
    st₁.text = st₂.text → st₁.cache = st₂.cache →
    (es.foldl (processEntity env) st₁).text = (es.foldl (processEntity env) st₂).text := by
  intro es
  induction es with
  | nil => intro _ _ ht _; simpa using ht
  | cons e es ih =>
    intro st₁ st₂ ht hc
    rw [List.foldl_cons, List.foldl_cons]
    obtain ⟨ht2, hc2⟩ := processEntity_text_cache_congr env st₁ st₂ e ht hc
    exact ih _ _ ht2 hc2

/-- C6: preprocessing never fails the job — an internal preprocessing error
returns the original markdown unchanged; a failed download for one token
leaves text and cache untouched, so the run behaves exactly as if that token
were skipped while all other tokens are still substituted; and for every
preprocessor outcome whatsoever the pipeline reaches the post-preprocessing
checkpoint (progress 40) whenever the read and the temp-file write succeed,
i.e. it never aborts at the preprocessing stage. -/
theorem claim6_preprocessing_never_fatal :
    (∀ (env : PreEnv) (markdown : String), env.internalError = true →
      (preprocessMarkdown env markdown).text = markdown) ∧
    (∀ (env : PreEnv) (st : PreState) (e : Entity),
      st.cache.contains (finalName e.url) = false →
      env.downloadOk (finalName e.url) = false →
      (processEntity env st e).text = st.text ∧
        (processEntity env st e).cache = st.cache) ∧
    (∀ (env : PreEnv) (st : PreState) (e : Entity) (es : List Entity),
      st.cache.contains (finalName e.url) = false →
      env.downloadOk (finalName e.url) = false →
      ((e :: es).foldl (processEntity env) st).text =
        (es.foldl (processEntity env) st).text) ∧
    (∀ (env : ExecEnv) (job : Job) (now : Int),
      env.readOk = true → env.writeOk = true → 40 ∈ (executeJob env job now).2) := by
  refine ⟨?_, ?_, ?_, ?_⟩
  · intro env markdown h
    unfold preprocessMarkdown
    rw [if_pos h]
  · intro env st e hc hd
    exact processEntity_skip env st e hc hd
  · intro env st e es hc hd
    rw [List.foldl_cons]
    obtain ⟨ht, hcache⟩ := processEntity_skip env st e hc hd
    exact foldl_text_cache_congr env es _ st ht hcache
  · intro env job now hr hw
    cases hc : env.convertOk <;> cases hpdf : job.exportOptions.pdf <;>
      cases hdocx : job.exportOptions.docx <;> cases hpe : env.pdfExecOk <;>
      cases hpf : env.pdfFileOk <;>
      simp [executeJob, hr, hw, hc, hpdf, hdocx, hpe, hpf]

/-- Witness for C6: concrete instantiations of all four parts. -/
theorem claim6_preprocessing_never_fatal_witness :
    (preprocessMarkdown envThrow "md").text = "md" ∧
    ((processEntity envNoDl stE entE).text = stE.text ∧
      (processEntity envNoDl stE entE).cache = stE.cache) ∧
    (([entE] : List Entity).foldl (processEntity envNoDl) stE).text =
      (([] : List Entity).foldl (processEntity envNoDl) stE).text ∧
    40 ∈ (executeJob envPdfGhost jobBoth 0).2 :=
  ⟨claim6_preprocessing_never_fatal.1 envThrow "md" rfl,
    claim6_preprocessing_never_fatal.2.1 envNoDl stE entE rfl rfl,
    claim6_preprocessing_never_fatal.2.2.1 envNoDl stE entE [] rfl rfl,
    claim6_preprocessing_never_fatal.2.2.2 envPdfGhost jobBoth 0 rfl rfl⟩

/-! ## Bundling (claim C7) -/

/-- Every archive entry a job contributes points at a currently-present
file: paths whose file is gone are silently skipped. -/
lemma jobEntries_fileOk (fileOk : String → Bool) (j : Job) :
    ∀ e ∈ jobEntries fileOk j, fileOk e.2 = true := by
  intro e he
  unfold jobEntries at he
  rw [List.mem_append] at he
  rcases he with he | he
  · split at he
    · split at he
      · rename_i hok
        simp only [List.mem_singleton] at he
        subst he
        exact hok
      · simp at he
    · simp at he
  · split at he
    · split at he
      · rename_i hok
        simp only [List.mem_singleton] at he
        subst he
        exact hok
      · simp at he
    · simp at he

/-- C7 counterexample: bundling with an empty job-id list does not fail with
the no-content error (404, `No completed files found to zip`); it fails with
the distinct invalid-request error (400, `No job IDs provided`). -/
theorem claim7_empty_list_not_nocontent :
    zipHandler [] (fun _ => true) [] = .badRequest "No job IDs provided" ∧
    zipHandler [] (fun _ => true) [] ≠ .notFound "No completed files found to zip" := by
  exact ⟨rfl, by decide⟩

/-- C7 (amended): with an empty id list bundling fails with the
invalid-request error; with a nonempty list none of whose ids names a
completed job it fails with the no-content error; with one completed job and
one nonexistent id it returns an archive holding exactly the completed job's
entries — each named from the original filename with the proper extension —
and every entry of any produced archive points at a still-present file, so
already-deleted artifacts are silently skipped. -/
theorem claim7_amended_bundling (jobs : List (String × Job)) (fileOk : String → Bool)
    (ids : List String) :
    (ids = [] → zipHandler jobs fileOk ids = .badRequest "No job IDs provided") ∧
    (ids ≠ [] →
      (∀ id ∈ ids, ∀ j : Job, getJob jobs id = some j → j.state ≠ .completed) →
      zipHandler jobs fileOk ids = .notFound "No completed files found to zip") ∧
    (∀ (a b : String) (j : Job), ids = [a, b] → getJob jobs a = some j →
      j.state = .completed → getJob jobs b = none →
      zipHandler jobs fileOk ids = .archive (jobEntries fileOk j)) ∧
    (∀ es, zipHandler jobs fileOk ids = .archive es →
      ∀ e ∈ es, fileOk e.2 = true) := by
  refine ⟨?_, ?_, ?_, ?_⟩
  · intro h
    subst h
    rfl
  · intro hne hnc
    have hval : (ids.filterMap (getJob jobs)).filter (fun j => j.state == .completed) = [] := by
      rw [List.filter_eq_nil_iff]
      intro j hj
      obtain ⟨id, hid, hgj⟩ := List.mem_filterMap.mp hj
      have := hnc id hid j hgj
      simp [this]
    unfold zipHandler
    rw [if_neg (by simp [List.isEmpty_eq_true, hne])]
    dsimp only
    rw [hval]
    rfl
  · intro a b j hids hga hcomp hgb
    subst hids
    unfold zipHandler
    rw [if_neg (by simp)]
    dsimp only
    rw [List.filterMap_cons, hga, List.filterMap_cons, hgb, List.filterMap_nil]
    rw [List.filter_cons_of_pos (by simp [hcomp])]
    simp
  · intro es harch e he
    unfold zipHandler at harch
    split at harch
    · cases harch
    · dsimp only at harch
      split at harch
      · cases harch
      · rw [ZipResponse.archive.injEq] at harch
        subst harch
        obtain ⟨j, hj, hje⟩ := List.mem_flatMap.mp he
        exact jobEntries_fileOk fileOk j e hje

/-- A completed job with both artifacts registered. -/
def jobDone : Job :=
  { jobBoth with
    state := .completed
    outDocx := some "/tmp/output-j2.docx"
    outPdf := some "/tmp/output-j2.pdf" }

/-- A disk state in which only the docx artifact still exists (the pdf was
already evicted by retention). -/
def fileOkDocx : String → Bool := fun p => p == "/tmp/output-j2.docx"

/-- Witness for C7 (amended): one completed job plus one nonexistent id
yields an archive holding exactly the completed job's still-present
artifacts — here only the docx entry, the deleted pdf being skipped. -/
theorem claim7_amended_bundling_witness :
    zipHandler [("j2", jobDone)] fileOkDocx ["j2", "zzz"] =
      .archive (jobEntries fileOkDocx jobDone) ∧
    jobEntries fileOkDocx jobDone = [("note.docx", "/tmp/output-j2.docx")] :=
  ⟨(claim7_amended_bundling [("j2", jobDone)] fileOkDocx ["j2", "zzz"]).2.2.1
      "j2" "zzz" jobDone rfl (by decide) rfl (by decide),
    by decide⟩

end NotesConverter
